import Mathlib

/-!
Shallow embedding of the event pipeline of `src/main.rs` (a countdown CLI):
expiry filtering, ordering policies, and limiting.

Modelling conventions:
* An instant (`SystemTime`) is an `Int`, the number of nanoseconds relative
  to the Unix epoch (`SystemTime` on Unix may lie before the epoch).
* `Duration` values are `Nat` nanosecond counts; `Duration.as_secs` is
  truncating division by `10^9`, exactly as in Rust.
* `SystemTime::duration_since(earlier)` returns `Ok` exactly when
  `earlier <= self` (at equality it returns the zero duration), else `Err`;
  we model the `Result` as `Option`.
* `u32` / `u16` values are `Nat`s; where a claim depends on the `u32` range
  of `Event.time` the bound appears as an explicit hypothesis.
* `Vec<T>` is `List T`; `sort_by` is the stable `List.mergeSort`;
  `rand`'s `shuffle` is Fisher–Yates driven by an abstract stream
  `rng : Nat → Nat` of random draws (`gen_range(0..=i)` is `rng i % (i+1)`).
-/

def SECONDS_IN_DAY : Nat := 86400

def NANOS_PER_SEC : Nat := 1000000000

/-- `struct Event { name: String, time: u32 }` — `time` is epoch seconds. -/
structure Event where
  name : String
  time : Nat
  deriving DecidableEq, Repr

/-- `struct FutureEvent { name: String, days_left: u16 }`. -/
structure FutureEvent where
  name : String
  days_left : Nat
  deriving DecidableEq, Repr

/-- `UNIX_EPOCH + Duration::from_secs(self.time)`, in nanoseconds. -/
def Event.system_time (e : Event) : Int :=
  (e.time : Int) * NANOS_PER_SEC

/-- `SystemTime::duration_since`: `Ok(self - earlier)` when
`earlier <= self` (zero duration at equality), `Err` otherwise. -/
def duration_since (self earlier : Int) : Option Nat :=
  if earlier ≤ self then some (self - earlier).toNat else none

/-- `u16::try_from` on a nonnegative count: succeeds iff it fits 16 bits. -/
def u16_try_from (n : Nat) : Option Nat :=
  if n ≤ 65535 then some n else none

/-- `Event::days_left`: seconds until the event, divided by 86400,
converted to `u16`; `None` when the event has passed or the count
does not fit. -/
def Event.days_left (e : Event) (current_time : Int) : Option Nat :=
  (duration_since e.system_time current_time).bind
    (fun dur => u16_try_from (dur / NANOS_PER_SEC / SECONDS_IN_DAY))

/-- `Event::as_future_event`. -/
def Event.as_future_event (e : Event) (current_time : Int) : Option FutureEvent :=
  (e.days_left current_time).map (fun days => ⟨e.name, days⟩)

/-- `filter_expired_events`: `events.iter().filter_map(|ev| ev.as_future_event(now)).collect()`. -/
def filter_expired_events (now : Int) (events : List Event) : List FutureEvent :=
  events.filterMap (fun ev => ev.as_future_event now)

/-- The comparator of `events_sorted_by_time`, as a boolean "precedes or
ties" relation: ascending compares `a.days_left.cmp(&b.days_left)`,
descending compares `b.days_left.cmp(&a.days_left)`. -/
def sortLe (is_asc : Bool) (a b : FutureEvent) : Bool :=
  if is_asc then decide (a.days_left ≤ b.days_left)
  else decide (b.days_left ≤ a.days_left)

/-- `events_sorted_by_time`: a stable sort (`Vec::sort_by`) by `days_left`. -/
def events_sorted_by_time (events : List FutureEvent) (is_asc : Bool) : List FutureEvent :=
  events.mergeSort (sortLe is_asc)

/-- `enum SortOrder { Shuffle, TimeAsc, TimeDesc }`. -/
inductive SortOrder where
  | Shuffle
  | TimeAsc
  | TimeDesc
  deriving DecidableEq, Repr

/-- Swap the elements at positions `i` and `j` (`<[T]>::swap`); out-of-range
indices leave the list unchanged (the model never produces them). -/
def listSwap (l : List α) (i j : Nat) : List α :=
  match l[i]?, l[j]? with
  | some a, some b => (l.set i b).set j a
  | some _, none => l
  | none, _ => l

/-- The loop of `rand`'s `SliceRandom::shuffle`: for `i` from `len-1`
down to `1`, swap position `i` with `gen_range(0..=i)`. -/
def shuffleAux (rng : Nat → Nat) : List FutureEvent → Nat → List FutureEvent
  | l, 0 => l
  | l, n+1 => shuffleAux rng (listSwap l (n+1) (rng (n+1) % (n+2))) n

/-- `cloned.shuffle(&mut thread_rng())` with the thread RNG abstracted as
a stream of draws. -/
def shuffle (rng : Nat → Nat) (l : List FutureEvent) : List FutureEvent :=
  shuffleAux rng l (l.length - 1)

/-- `sort_events`: dispatch on the optional order; `None` defaults to
ascending. -/
def sort_events (rng : Nat → Nat) (events : List FutureEvent)
    (order : Option SortOrder) : List FutureEvent :=
  match order with
  | some SortOrder.Shuffle => shuffle rng events
  | some SortOrder.TimeAsc => events_sorted_by_time events true
  | some SortOrder.TimeDesc => events_sorted_by_time events false
  | none => events_sorted_by_time events true

/-- `limit_events`: `events.into_iter().take(n)` when a limit is given. -/
def limit_events (events : List FutureEvent) (limit : Option Nat) : List FutureEvent :=
  match limit with
  | some n => events.take n
  | none => events

/-- The order / limit fields of `CountdownArgs` that the pipeline reads. -/
structure CountdownArgs where
  order : Option SortOrder
  n : Option Nat

/-- `applicable_events`: filter, then sort, then limit. -/
def applicable_events (rng : Nat → Nat) (now : Int) (events : List Event)
    (args : CountdownArgs) : List FutureEvent :=
  limit_events (sort_events rng (filter_expired_events now events) args.order) args.n

/-- The day count the spec ascribes to an event: the whole number of days
in the (nonnegative) span from the reference instant to the event,
`floor((E.time − R) / 86400)` measured in seconds. -/
def claimDays (now : Int) (e : Event) : Nat :=
  (e.system_time - now).toNat / (NANOS_PER_SEC * SECONDS_IN_DAY)

/-- Whether the filter keeps the event: not yet passed, day count fits. -/
def keepEvent (now : Int) (e : Event) : Bool :=
  decide (now ≤ e.system_time) && decide (claimDays now e ≤ 65535)

/-- The projection the filter applies to a kept event. -/
def toFutureEvent (now : Int) (e : Event) : FutureEvent :=
  ⟨e.name, claimDays now e⟩

/-! ### Helper lemmas -/

/-- `as_future_event` keeps exactly the events that have not passed and
whose day count fits `u16`, projecting them to name and day count. -/
theorem as_future_event_eq (e : Event) (now : Int) :
    e.as_future_event now =
      if keepEvent now e then some (toFutureEvent now e) else none := by
  simp only [Event.as_future_event, Event.days_left, duration_since, u16_try_from,
    keepEvent, toFutureEvent, claimDays, Nat.div_div_eq_div_mul]
  by_cases h1 : now ≤ e.system_time
  · by_cases h2 : (e.system_time - now).toNat / (NANOS_PER_SEC * SECONDS_IN_DAY) ≤ 65535
    · simp [h1, h2]
    · simp [h1, h2]
  · simp [h1]

/-- The filter is the in-order projection of the kept events. -/
theorem filter_eq_map_filter (now : Int) (l : List Event) :
    filter_expired_events now l = (l.filter (keepEvent now)).map (toFutureEvent now) := by
  induction l with
  | nil => rfl
  | cons x xs ih =>
    simp only [filter_expired_events, List.filterMap_cons, List.filter_cons] at *
    rw [as_future_event_eq]
    by_cases h : keepEvent now x
    · simp [h, ih]
    · simp [h, ih]

/-- Consing a displaced element onto a list whose slot `m` was overwritten
is a permutation of consing the overwriting element onto the original. -/
theorem set_cons_perm : ∀ (xs : List α) (m : Nat) (x b : α),
    xs[m]? = some b → (b :: xs.set m x).Perm (x :: xs)
  | [], m, _, _, h => by simp at h
  | y :: t, 0, x, b, h => by
    simp only [List.getElem?_cons_zero, Option.some.injEq] at h
    subst h
    simp only [List.set_cons_zero]
    exact List.Perm.swap x y t
  | y :: t, m+1, x, b, h => by
    simp only [List.getElem?_cons_succ] at h
    have ih := set_cons_perm t m x b h
    simp only [List.set_cons_succ]
    exact (List.Perm.swap y b (t.set m x)).trans ((ih.cons y).trans (List.Perm.swap x y t))

/-- Swapping two positions permutes the list. -/
theorem listSwap_perm : ∀ (l : List α) (i j : Nat), (listSwap l i j).Perm l := by
  intro l
  induction l with
  | nil => intro i j; simp [listSwap]
  | cons x t ih =>
    intro i j
    match i, j with
    | 0, 0 => simp [listSwap]
    | 0, m+1 =>
      rcases ht : t[m]? with _ | b
      · simp [listSwap, ht]
      · simpa [listSwap, ht] using set_cons_perm t m x b ht
    | k+1, 0 =>
      rcases ht : t[k]? with _ | a
      · simp [listSwap, ht]
      · simpa [listSwap, ht] using set_cons_perm t k x a ht
    | k+1, m+1 =>
      rcases hk : t[k]? with _ | a
      · simp [listSwap, hk]
      · rcases hm : t[m]? with _ | b
        · simp [listSwap, hk, hm]
        · have := ih k m
          simp only [listSwap, hk, hm] at this
          simpa [listSwap, hk, hm] using this.cons x

/-- Each pass of the shuffle loop permutes the list. -/
theorem shuffleAux_perm (rng : Nat → Nat) :
    ∀ (n : Nat) (l : List FutureEvent), (shuffleAux rng l n).Perm l
  | 0, l => List.Perm.refl l
  | n+1, l =>
    (shuffleAux_perm rng n (listSwap l (n+1) (rng (n+1) % (n+2)))).trans
      (listSwap_perm l (n+1) (rng (n+1) % (n+2)))

/-- The sort comparator is transitive. -/
theorem sortLe_trans (is_asc : Bool) :
    ∀ a b c, sortLe is_asc a b → sortLe is_asc b c → sortLe is_asc a c := by
  intro a b c
  cases is_asc <;> simp [sortLe] <;> omega

/-- The sort comparator is total. -/
theorem sortLe_total (is_asc : Bool) :
    ∀ a b, sortLe is_asc a b || sortLe is_asc b a := by
  intro a b
  cases is_asc <;> simp [sortLe] <;> omega

/-- Stability of the sort, stated through filtering on a fixed day
count: the sorted list restricted to any one key equals the input
restricted to that key, hence ties keep their relative input order. -/
theorem filter_events_sorted_by_time (is_asc : Bool) (l : List FutureEvent) (k : Nat) :
    (events_sorted_by_time l is_asc).filter (fun e => e.days_left == k) =
      l.filter (fun e => e.days_left == k) := by
  have hpair : (l.filter (fun e => e.days_left == k)).Pairwise (fun a b => sortLe is_asc a b) := by
    apply List.pairwise_of_forall_mem_list
    intro a ha b hb
    have ha' := (List.mem_filter.mp ha).2
    have hb' := (List.mem_filter.mp hb).2
    simp only [beq_iff_eq] at ha' hb'
    cases is_asc <;> simp [sortLe, ha', hb']
  have hsub : List.Sublist (l.filter (fun e => e.days_left == k)) (l.mergeSort (sortLe is_asc)) :=
    List.sublist_mergeSort (sortLe_trans is_asc) (sortLe_total is_asc) hpair
      (List.filter_sublist l)
  have h2 := hsub.filter (fun e => e.days_left == k)
  rw [List.filter_filter] at h2
  simp only [Bool.and_self] at h2
  have hlen : ((l.mergeSort (sortLe is_asc)).filter (fun e => e.days_left == k)).length =
      (l.filter (fun e => e.days_left == k)).length :=
    ((List.mergeSort_perm l (sortLe is_asc)).filter (fun e => e.days_left == k)).length_eq
  exact (h2.eq_of_length hlen.symm).symm

/-! ### Claims -/

/-- Claim C1: for a stored event strictly in the future whose whole-day
count is at most 65535, filtering the singleton list yields exactly one
`FutureEvent` carrying the event's name and `floor((E.time − R) / 86400)`
days. -/
theorem filter_single_future (e : Event) (R : Int)
    (h1 : R < e.system_time) (h2 : claimDays R e ≤ 65535) :
    filter_expired_events R [e] = [⟨e.name, claimDays R e⟩] := by
  have hk : keepEvent R e = true := by
    simp [keepEvent, le_of_lt h1, h2]
  simp [filter_expired_events, as_future_event_eq, hk, toFutureEvent]

/-- Witness for C1: an event two days after the epoch, seen from the
epoch, survives the filter with a day count of 2. -/
theorem filter_single_future_witness :
    filter_expired_events 0 [Event.mk "A" 172800] = [FutureEvent.mk "A" 2] :=
  filter_single_future (Event.mk "A" 172800) 0 (by decide) (by decide)

/-- Counterexample to claim C2 as stated: an event whose target moment
exactly equals the reference instant is not dropped — the filter keeps
it with a day count of 0, so the output is not empty. -/
theorem filter_at_reference_included :
    filter_expired_events 0 [Event.mk "a" 0] ≠ [] ∧
    filter_expired_events 0 [Event.mk "a" 0] = [FutureEvent.mk "a" 0] := by
  exact ⟨by decide, by decide⟩

/-- Claim C2 (amended): an event whose target moment is strictly before
the reference instant is dropped (empty output, no error); an event whose
target moment exactly equals the reference instant is kept, with
`days_left = 0`. -/
theorem filter_drops_past_events (e : Event) (R : Int) :
    (e.system_time < R → filter_expired_events R [e] = []) ∧
    (e.system_time = R → filter_expired_events R [e] = [⟨e.name, 0⟩]) := by
  constructor
  · intro h
    simp [filter_expired_events, as_future_event_eq, keepEvent, not_le.mpr h]
  · intro h
    have hd : claimDays R e = 0 := by simp [claimDays, h]
    have hk : keepEvent R e = true := by simp [keepEvent, h, hd]
    simp [filter_expired_events, as_future_event_eq, hk, toFutureEvent, hd]

/-- Witness for C2 (amended): an event 10 ns before the reference is
dropped; an event exactly at the reference is kept with 0 days left. -/
theorem filter_drops_past_events_witness :
    filter_expired_events 10 [Event.mk "p" 0] = [] ∧
    filter_expired_events 0 [Event.mk "q" 0] = [FutureEvent.mk "q" 0] :=
  ⟨(filter_drops_past_events (Event.mk "p" 0) 10).1 (by decide),
   (filter_drops_past_events (Event.mk "q" 0) 0).2 (by decide)⟩

/-- Claim C3: `applicable_events` is exactly the composition of limiting
after ordering after filtering. -/
theorem applicable_events_is_pipeline (rng : Nat → Nat) (now : Int)
    (events : List Event) (args : CountdownArgs) :
    applicable_events rng now events args =
      limit_events (sort_events rng (filter_expired_events now events) args.order) args.n :=
  rfl

/-- Claim C4: both directed policies are stable sorts by `days_left` —
each output is a permutation of the input, is pairwise ordered
(increasing for ascending, decreasing for descending), and restricted to
any single `days_left` value equals the input so restricted, i.e. ties
keep their relative input order. -/
theorem events_sorted_by_time_stable (l : List FutureEvent) :
    ((events_sorted_by_time l true).Perm l ∧
      (events_sorted_by_time l true).Pairwise (fun a b => a.days_left ≤ b.days_left) ∧
      ∀ k, (events_sorted_by_time l true).filter (fun e => e.days_left == k) =
        l.filter (fun e => e.days_left == k)) ∧
    ((events_sorted_by_time l false).Perm l ∧
      (events_sorted_by_time l false).Pairwise (fun a b => b.days_left ≤ a.days_left) ∧
      ∀ k, (events_sorted_by_time l false).filter (fun e => e.days_left == k) =
        l.filter (fun e => e.days_left == k)) := by
  refine ⟨⟨List.mergeSort_perm l _, ?_, fun k => filter_events_sorted_by_time true l k⟩,
    ⟨List.mergeSort_perm l _, ?_, fun k => filter_events_sorted_by_time false l k⟩⟩
  · have h := List.sorted_mergeSort (sortLe_trans true) (sortLe_total true) l
    exact h.imp (by intro a b hab; simpa [sortLe] using hab)
  · have h := List.sorted_mergeSort (sortLe_trans false) (sortLe_total false) l
    exact h.imp (by intro a b hab; simpa [sortLe] using hab)

/-- Claim C5: for every state of the random source, the shuffle policy
returns a permutation of its input (equal multisets, equal length). -/
theorem shuffle_is_permutation (rng : Nat → Nat) (l : List FutureEvent) :
    (sort_events rng l (some SortOrder.Shuffle)).Perm l ∧
    (sort_events rng l (some SortOrder.Shuffle)).length = l.length := by
  have h : (sort_events rng l (some SortOrder.Shuffle)).Perm l :=
    shuffleAux_perm rng (l.length - 1) l
  exact ⟨h, h.length_eq⟩

/-- Claim C6: a strictly-future event whose whole-day count exceeds 65535
is dropped by the filter, and no `FutureEvent` the filter produces ever
has a day count above 65535. -/
theorem overflow_days_dropped (e : Event) (R : Int) (l : List Event) :
    (R < e.system_time → 65535 < claimDays R e → filter_expired_events R [e] = []) ∧
    (∀ fe ∈ filter_expired_events R l, fe.days_left ≤ 65535) := by
  constructor
  · intro _ h2
    simp [filter_expired_events, as_future_event_eq, keepEvent, Nat.not_le.mpr h2]
  · intro fe hfe
    rw [filter_eq_map_filter] at hfe
    obtain ⟨e', he', rfl⟩ := List.mem_map.mp hfe
    have hk := (List.mem_filter.mp he').2
    simp only [keepEvent, Bool.and_eq_true, decide_eq_true_eq] at hk
    exact hk.2

/-- Witness for C6: from a reference instant 65536 days before the epoch,
an event at the epoch overflows the day range and is dropped; and every
event the filter keeps has at most 65535 days left. -/
theorem overflow_days_dropped_witness :
    filter_expired_events (-5662310400000000000) [Event.mk "far" 0] = [] ∧
    ∀ fe ∈ filter_expired_events 0 [Event.mk "x" 86400], fe.days_left ≤ 65535 :=
  ⟨(overflow_days_dropped (Event.mk "far" 0) (-5662310400000000000) []).1
      (by decide) (by decide),
   (overflow_days_dropped (Event.mk "x" 86400) 0 [Event.mk "x" 86400]).2⟩

/-- Claim C7: no limit returns the input unchanged; a limit returns the
first `n` elements in order (all of them when `n` exceeds the length);
a zero limit returns the empty list. -/
theorem limit_events_spec (l : List FutureEvent) :
    limit_events l none = l ∧
    (∀ n, limit_events l (some n) = l.take n) ∧
    (∀ n, l.length ≤ n → limit_events l (some n) = l) ∧
    limit_events l (some 0) = [] := by
  refine ⟨rfl, fun n => rfl, fun n h => ?_, rfl⟩
  simp [limit_events, List.take_of_length_le h]

/-- Witness for C7: a limit of 5 on a one-element list returns it whole. -/
theorem limit_events_spec_witness :
    limit_events [FutureEvent.mk "a" 1] (some 5) = [FutureEvent.mk "a" 1] :=
  (limit_events_spec [FutureEvent.mk "a" 1]).2.2.1 5 (by decide)

/-- Claim C8: the filter's output is the in-order projection of the
non-dropped events — the kept events form an in-order sublist of the
input, and the output maps that sublist without reordering. -/
theorem filter_preserves_order (now : Int) (l : List Event) :
    filter_expired_events now l = (l.filter (keepEvent now)).map (toFutureEvent now) ∧
    List.Sublist (l.filter (keepEvent now)) l :=
  ⟨filter_eq_map_filter now l, List.filter_sublist l⟩

/-- Claim C9: an unspecified order policy sorts exactly like the
ascending policy. -/
theorem sort_events_default_ascending (rng : Nat → Nat) (l : List FutureEvent) :
    sort_events rng l none = sort_events rng l (some SortOrder.TimeAsc) :=
  rfl

/-- Claim C10: when the reference instant is at or after the Unix epoch
and the event's timestamp fits `u32`, the day count is at most
49710 (= floor(4294967295 / 86400)), so the `u16` conversion never fails
and a non-expired event is never dropped by the 65535-day ceiling. -/
theorem u16_conversion_never_fails (e : Event) (now : Int)
    (hnow : 0 ≤ now) (htime : e.time < 4294967296) :
    claimDays now e ≤ 49710 ∧
    (now ≤ e.system_time → e.days_left now = some (claimDays now e)) := by
  have h2 : (e.system_time - now).toNat ≤ 4294967295000000000 := by
    have h1 : e.system_time ≤ (4294967295 : Int) * 1000000000 := by
      simp only [Event.system_time, NANOS_PER_SEC]
      omega
    omega
  have hb : claimDays now e ≤ 49710 := by
    calc claimDays now e
        = (e.system_time - now).toNat / 86400000000000 := rfl
      _ ≤ 4294967295000000000 / 86400000000000 := Nat.div_le_div_right h2
      _ = 49710 := by norm_num
  refine ⟨hb, fun h => ?_⟩
  have h65 : claimDays now e ≤ 65535 := le_trans hb (by norm_num)
  simp only [Event.days_left, duration_since, if_pos h, Option.bind_some,
    Nat.div_div_eq_div_mul]
  simpa only [u16_try_from, claimDays] using if_pos h65

/-- Witness for C10: an event one day after the epoch, seen from the
epoch, has its day count (1) well under both ceilings. -/
theorem u16_conversion_never_fails_witness :
    claimDays 0 (Event.mk "a" 86400) ≤ 49710 ∧
    Event.days_left (Event.mk "a" 86400) 0 = some (claimDays 0 (Event.mk "a" 86400)) :=
  ⟨(u16_conversion_never_fails (Event.mk "a" 86400) 0 (by decide) (by decide)).1,
   (u16_conversion_never_fails (Event.mk "a" 86400) 0 (by decide) (by decide)).2 (by decide)⟩
